import Mathlib

/-!
Shallow embedding of `src/Equalizers/equalizers.py` (classes `Equalizer`,
`zeroForcing`, `MMSEEQ`).

Modelling conventions:
* numpy float64 vectors and matrices are modelled as `List ℚ` and
  `List (List ℚ)` with exact rational arithmetic;
* numpy / Python exceptions are modelled with `Except PyError`; a `design`
  call returns the post-call instance state together with the result, so
  that mutations that happen before an exception is raised stay visible;
* `np.linalg.inv` is modelled by the adjugate formula (`matInv`), which
  agrees with numpy's inverse exactly when the determinant is nonzero;
* `np.linalg.pinv` is modelled by the normal-equations formula
  `(HᵀH)⁻¹Hᵀ`, which agrees with the Moore-Penrose pseudo-inverse
  exactly when `H` has full column rank (the case for every concrete
  input used below);
* `MMSEEQ.design` takes the linear noise ratio `gamma` directly; the
  Python source computes `gamma = 10**(-snr/10)` from the SNR in dB
  (for `snr = 20` dB this is exactly `1/100`).
-/

/-- Python / numpy exceptions that the modelled code can raise.
`invalidDelay` is the `ValueError('Given delay is too large ...')` raised by
`design`; `indexError` is numpy's `IndexError` for an out-of-range scalar
index assignment; `valueError` is the `ValueError` raised by `np.convolve`
when one of its operands is empty. -/
inductive PyError
  | invalidDelay
  | indexError
  | valueError
deriving DecidableEq, Repr

/-- Model of `np.zeros(n)`. -/
def zeros (n : ℕ) : List ℚ := List.replicate n 0

/-- Dot product of two lists (extra entries of the longer list are ignored,
matching the fact that all call sites use equal lengths). -/
def dot (a b : List ℚ) : ℚ := (List.zipWith (· * ·) a b).sum

/-- Number of columns of a row-major matrix. -/
def ncols (M : List (List ℚ)) : ℕ := (M.headD []).length

/-- Matrix transpose (entries read with default 0). -/
def transpose (M : List (List ℚ)) : List (List ℚ) :=
  (List.range (ncols M)).map (fun j => M.map (fun r => r.getD j 0))

/-- Matrix-vector product `M @ x`. -/
def matVec (M : List (List ℚ)) (x : List ℚ) : List ℚ := M.map (fun r => dot r x)

/-- Matrix-matrix product `A @ B`. -/
def matMul (A B : List (List ℚ)) : List (List ℚ) :=
  A.map (fun r => (transpose B).map (fun c => dot r c))

/-- Entrywise matrix sum. -/
def matAdd (A B : List (List ℚ)) : List (List ℚ) :=
  List.zipWith (List.zipWith (· + ·)) A B

/-- Scalar multiple of a matrix. -/
def smulMat (c : ℚ) (M : List (List ℚ)) : List (List ℚ) :=
  M.map (List.map (fun x => c * x))

/-- Model of `np.eye(n)`. -/
def eye (n : ℕ) : List (List ℚ) :=
  (List.range n).map (fun i => (List.range n).map (fun j => if i = j then (1 : ℚ) else 0))

/-- Model of `np.diag` of a square matrix: its diagonal as a vector. -/
def diag (M : List (List ℚ)) : List ℚ :=
  (List.range M.length).map (fun i => (M.getD i []).getD i 0)

/-- Delete row `i` and column `j` of a matrix. -/
def strike (M : List (List ℚ)) (i j : ℕ) : List (List ℚ) :=
  (M.eraseIdx i).map (fun r => r.eraseIdx j)

/-- Determinant by Laplace expansion along the first row, with a fuel
argument (the row count) to make the recursion structural. -/
def detAux : ℕ → List (List ℚ) → ℚ
  | _, [] => 1
  | 0, _ :: _ => 0
  | fuel + 1, r0 :: rest =>
      ((List.range r0.length).map
        (fun j => (-1) ^ j * r0.getD j 0 * detAux fuel (rest.map (fun r => r.eraseIdx j)))).sum

/-- Determinant of a square matrix. -/
def det (M : List (List ℚ)) : ℚ := detAux M.length M

/-- Model of `np.linalg.inv`, via the adjugate formula
`A⁻¹[i][j] = (-1)^(i+j) det(strike A j i) / det A`.  Agrees with numpy
whenever `det A ≠ 0` (numpy raises `LinAlgError` on singular input; every
inversion performed by the modelled code is of a nonsingular matrix in the
scenarios proved below). -/
def matInv (M : List (List ℚ)) : List (List ℚ) :=
  (List.range M.length).map
    (fun i => (List.range M.length).map
      (fun j => (-1) ^ (i + j) * det (strike M j i) / det M))

/-- Model of `np.linalg.pinv`: the normal-equations formula
`pinv H = (Hᵀ H)⁻¹ Hᵀ`, which coincides with the Moore-Penrose
pseudo-inverse whenever `H` has full column rank. -/
def pinv (H : List (List ℚ)) : List (List ℚ) :=
  matMul (matInv (matMul (transpose H) H)) (transpose H)

/-- Model of `scipy.linalg.toeplitz(c, r)`: the matrix `T` with
`T[i][j] = c[i-j]` for `j ≤ i` and `T[i][j] = r[j-i]` for `j > i`,
of shape `len(c) × len(r)`. -/
def toeplitz (c r : List ℚ) : List (List ℚ) :=
  (List.range c.length).map
    (fun i => (List.range r.length).map
      (fun j => if j ≤ i then c.getD (i - j) 0 else r.getD (j - i) 0))

/-- Model of `Equalizer.convMatrix(h, p)` from the source:
`col = hstack((h, zeros(p-1)))`, `row = hstack((h[0], zeros(p-1)))`,
`H = toeplitz(col, row)`.  (`h.getD 0 0` is `h[0]` for the nonempty `h`
required by the caller contract.) -/
def convMatrix (h : List ℚ) (p : ℕ) : List (List ℚ) :=
  toeplitz (h ++ zeros (p - 1)) (h.getD 0 0 :: zeros (p - 1))

/-- Model of `np.argmax`: index of the first occurrence of the maximum value
(lowest index wins ties). -/
def argmaxList : List ℚ → ℕ
  | [] => 0
  | [_] => 0
  | x :: y :: rest =>
      let r := argmaxList (y :: rest)
      if x < (y :: rest).getD r 0 then r + 1 else 0

/-- numpy scalar index assignment `v[k] = x` with Python negative-index
semantics: a negative `k` counts from the end; an index out of
`[-len v, len v)` raises `IndexError`. -/
def npSetIndex (v : List ℚ) (k : ℤ) (x : ℚ) : Except PyError (List ℚ) :=
  let i : ℤ := if k < 0 then k + (v.length : ℤ) else k
  if 0 ≤ i ∧ i < (v.length : ℤ) then Except.ok (v.set i.toNat x)
  else Except.error PyError.indexError

/-- Model of `np.convolve(a, v)` in its default full mode:
`out[n] = Σ_j a[j] * v[n-j]`, `n = 0 .. len a + len v - 2`.
(The call sites guard the empty-operand `ValueError` separately.) -/
def npConvolve (a v : List ℚ) : List ℚ :=
  (List.range (a.length + v.length - 1)).map
    (fun n => ((List.range (n + 1)).map (fun j => a.getD j 0 * v.getD (n - j) 0)).sum)

/-- Instance state of the Python `Equalizer` classes: the tap count `N`,
the stored weight vector `w` and the stored optimized delay `opt_delay`. -/
structure Equalizer where
  N : ℕ
  w : List ℚ
  opt_delay : ℕ
deriving DecidableEq, Repr

/-- Model of `Equalizer.__init__(N)`: `w = np.zeros(N)`, `opt_delay = 0`. -/
def Equalizer.init (N : ℕ) : Equalizer := ⟨N, zeros N, 0⟩

/-- Model of `Equalizer.equalize(inputSamples)`: `np.convolve(inputSamples, self.w)`.
`np.convolve` raises `ValueError` when either operand is empty. -/
def Equalizer.equalize (eq : Equalizer) (inputSamples : List ℚ) :
    Except PyError (List ℚ) :=
  if inputSamples.length = 0 ∨ eq.w.length = 0 then Except.error PyError.valueError
  else Except.ok (npConvolve inputSamples eq.w)

/-- The per-delay fidelity scores of the zero-forcing designer:
`np.diag(H @ Hp)` with `H = convMatrix(h, N)` and `Hp = pinv(H)`. -/
def zfScores (h : List ℚ) (N : ℕ) : List ℚ :=
  diag (matMul (convMatrix h N) (pinv (convMatrix h N)))

/-- The optimum delay computed by the zero-forcing designer:
`np.argmax(np.diag(H @ Hp))`. -/
def zfOpt (h : List ℚ) (N : ℕ) : ℕ := argmaxList (zfScores h N)

/-- Tail of `zeroForcing.design` after the delay has been resolved to `k0`:
build `d = np.zeros(N+L-1); d[k0] = 1`, then commit `self.w = Hp @ d` and
return `MSE = 1 - d.T @ H @ Hp @ d`.  An `IndexError` from `d[k0] = 1`
propagates with `w` still unchanged. -/
def zfCommit (eq : Equalizer) (h : List ℚ) (k0 : ℤ) : Equalizer × Except PyError ℚ :=
  match npSetIndex (zeros (eq.N + h.length - 1)) k0 1 with
  | Except.error e => (eq, Except.error e)
  | Except.ok d =>
      ({ eq with w := matVec (pinv (convMatrix h eq.N)) d },
        Except.ok (1 - dot d (matVec (convMatrix h eq.N)
          (matVec (pinv (convMatrix h eq.N)) d))))

/-- Model of `zeroForcing.design(h, delay=None)`.  Mirrors the source order:
`self.opt_delay` is assigned the computed optimum BEFORE the delay
validation; the `ValueError` for a too-large delay sits in the `elif`
branch, so it is only ever checked when a delay was explicitly given. -/
def zeroForcing.design (eq : Equalizer) (h : List ℚ) (delay : Option ℤ) :
    Equalizer × Except PyError ℚ :=
  let eq1 : Equalizer := { eq with opt_delay := zfOpt h eq.N }
  match delay with
  | none => zfCommit eq1 h (zfOpt h eq.N : ℤ)
  | some dl =>
      if (h.length : ℤ) + (eq.N : ℤ) - 1 ≤ dl then (eq1, Except.error PyError.invalidDelay)
      else zfCommit eq1 h dl

/-- The regularized inverse of the MMSE designer:
`np.linalg.inv(H.T @ H + gamma * np.eye(N))`. -/
def mmseR (h : List ℚ) (gamma : ℚ) (N : ℕ) : List (List ℚ) :=
  matInv (matAdd (matMul (transpose (convMatrix h N)) (convMatrix h N))
    (smulMat gamma (eye N)))

/-- The per-delay fidelity scores of the MMSE designer:
`np.diag(H @ inv(H.T @ H + gamma I) @ H.T)`. -/
def mmseScores (h : List ℚ) (gamma : ℚ) (N : ℕ) : List ℚ :=
  diag (matMul (matMul (convMatrix h N) (mmseR h gamma N)) (transpose (convMatrix h N)))

/-- The optimum delay computed by the MMSE designer. -/
def mmseOpt (h : List ℚ) (gamma : ℚ) (N : ℕ) : ℕ := argmaxList (mmseScores h gamma N)

/-- Tail of `MMSEEQ.design` after the delay has been resolved to `k0`:
build `d`, commit `self.w = inv(H.T @ H + gamma I) @ H.T @ d` and return
`MSE = 1 - d.T @ H @ inv(H.T @ H + gamma I) @ H.T @ d`. -/
def mmseCommit (eq : Equalizer) (h : List ℚ) (gamma : ℚ) (k0 : ℤ) :
    Equalizer × Except PyError ℚ :=
  match npSetIndex (zeros (eq.N + h.length - 1)) k0 1 with
  | Except.error e => (eq, Except.error e)
  | Except.ok d =>
      ({ eq with w := matVec (matMul (mmseR h gamma eq.N) (transpose (convMatrix h eq.N))) d },
        Except.ok (1 - dot (matVec (transpose (convMatrix h eq.N)) d)
          (matVec (matMul (mmseR h gamma eq.N) (transpose (convMatrix h eq.N))) d)))

/-- Model of `MMSEEQ.design(h, snr, delay=None)` with `gamma = 10**(-snr/10)` taken
as the parameter.  Mirrors the source order: `self.opt_delay` is assigned
BEFORE the delay validation; unlike the zero-forcing designer, the
too-large-delay check is applied to the resolved delay on BOTH paths
(plain `if`, not `elif`). -/
def MMSEEQ.design (eq : Equalizer) (h : List ℚ) (gamma : ℚ) (delay : Option ℤ) :
    Equalizer × Except PyError ℚ :=
  let eq1 : Equalizer := { eq with opt_delay := mmseOpt h gamma eq.N }
  let k0 : ℤ := match delay with
    | none => (mmseOpt h gamma eq.N : ℤ)
    | some dl => dl
  if (h.length : ℤ) + (eq.N : ℤ) - 1 ≤ k0 then (eq1, Except.error PyError.invalidDelay)
  else mmseCommit eq1 h gamma k0

/-! ### Basic helper lemmas -/

theorem zeros_length (n : ℕ) : (zeros n).length = n := List.length_replicate n 0

theorem zeros_getD (n k : ℕ) : (zeros n).getD k 0 = 0 := by
  induction n generalizing k with
  | zero => simp [zeros]
  | succ m ih =>
      cases k with
      | zero => simp [zeros, List.replicate_succ]
      | succ k' =>
          simp only [zeros, List.replicate_succ, List.getD_cons_succ]
          exact ih k'

theorem getD_append_zeros (h : List ℚ) (m k : ℕ) :
    (h ++ zeros m).getD k 0 = h.getD k 0 := by
  induction h generalizing k with
  | nil => rw [List.nil_append, zeros_getD]; rfl
  | cons a t ih =>
      cases k with
      | zero => rfl
      | succ k' => simpa using ih k'

theorem range_map_getD {α : Type} (n i : ℕ) (f : ℕ → α) (d : α) (hi : i < n) :
    ((List.range n).map f).getD i d = f i := by
  rw [List.getD_eq_getElem?_getD, List.getElem?_map, List.getElem?_range hi]
  rfl

theorem range_map_getD_ge {α : Type} (n i : ℕ) (f : ℕ → α) (d : α) (hi : n ≤ i) :
    ((List.range n).map f).getD i d = d := by
  rw [List.getD_eq_getElem?_getD, List.getElem?_eq_none]
  · rfl
  · simpa using hi

theorem sum_range_map (n : ℕ) (f : ℕ → ℚ) :
    ((List.range n).map f).sum = ∑ j in Finset.range n, f j := by
  induction n with
  | zero => simp
  | succ m ih => simp [List.range_succ, Finset.sum_range_succ, ih]

theorem range_two : List.range 2 = [0, 1] := by decide

theorem range_three : List.range 3 = [0, 1, 2] := by decide

/-! ### argmax lemmas: `argmaxList` is the first-occurrence argmax -/

theorem argmaxList_lt_length (xs : List ℚ) (hxs : xs ≠ []) :
    argmaxList xs < xs.length := by
  induction xs with
  | nil => simp at hxs
  | cons x t ih =>
      cases t with
      | nil => simp [argmaxList]
      | cons y rest =>
          have ht := ih (by simp)
          simp only [argmaxList]
          split
          · simpa using Nat.succ_lt_succ ht
          · simp

theorem argmaxList_is_max (xs : List ℚ) :
    ∀ i < xs.length, xs.getD i 0 ≤ xs.getD (argmaxList xs) 0 := by
  induction xs with
  | nil => intro i hi; simp at hi
  | cons x t ih =>
      cases t with
      | nil =>
          intro i hi
          simp only [List.length_singleton, Nat.lt_one_iff] at hi
          subst hi
          simp [argmaxList]
      | cons y rest =>
          intro i hi
          simp only [argmaxList]
          by_cases hc : x < (y :: rest).getD (argmaxList (y :: rest)) 0
          · rw [if_pos hc]
            cases i with
            | zero => simpa using le_of_lt hc
            | succ i' =>
                simp only [List.getD_cons_succ]
                exact ih i' (by simpa using hi)
          · rw [if_neg hc]
            cases i with
            | zero => simp
            | succ i' =>
                simp only [List.getD_cons_succ, List.getD_cons_zero]
                exact le_trans (ih i' (by simpa using hi)) (le_of_not_lt hc)

theorem argmaxList_first (xs : List ℚ) :
    ∀ i < argmaxList xs, xs.getD i 0 < xs.getD (argmaxList xs) 0 := by
  induction xs with
  | nil => intro i hi; simp [argmaxList] at hi
  | cons x t ih =>
      cases t with
      | nil => intro i hi; simp [argmaxList] at hi
      | cons y rest =>
          intro i hi
          simp only [argmaxList] at hi ⊢
          by_cases hc : x < (y :: rest).getD (argmaxList (y :: rest)) 0
          · rw [if_pos hc] at hi ⊢
            cases i with
            | zero => simpa using hc
            | succ i' =>
                simp only [List.getD_cons_succ]
                exact ih i' (Nat.lt_of_succ_lt_succ hi)
          · rw [if_neg hc] at hi
            exact absurd hi (Nat.not_lt_zero i)

/-! ### Shape lemmas -/

theorem toeplitz_length (c r : List ℚ) : (toeplitz c r).length = c.length := by
  simp [toeplitz]

theorem convMatrix_length (h : List ℚ) (p : ℕ) :
    (convMatrix h p).length = h.length + (p - 1) := by
  simp [convMatrix, toeplitz_length, zeros_length]

theorem matMul_length (A B : List (List ℚ)) : (matMul A B).length = A.length := by
  simp [matMul]

theorem diag_length (M : List (List ℚ)) : (diag M).length = M.length := by
  simp [diag]

theorem matVec_length (M : List (List ℚ)) (x : List ℚ) :
    (matVec M x).length = M.length := by
  simp [matVec]

theorem zfScores_length (h : List ℚ) (N : ℕ) :
    (zfScores h N).length = h.length + (N - 1) := by
  simp [zfScores, diag_length, matMul_length, convMatrix_length]

theorem mmseScores_length (h : List ℚ) (gamma : ℚ) (N : ℕ) :
    (mmseScores h gamma N).length = h.length + (N - 1) := by
  simp [mmseScores, diag_length, matMul_length, convMatrix_length]

theorem npConvolve_length (a v : List ℚ) :
    (npConvolve a v).length = a.length + v.length - 1 := by
  simp [npConvolve]

/-! ### `npSetIndex` lemmas -/

theorem npSetIndex_nat_ok (v : List ℚ) (k : ℕ) (x : ℚ) (hk : k < v.length) :
    npSetIndex v (k : ℤ) x = Except.ok (v.set k x) := by
  have h0 : ¬ ((k : ℤ) < 0) := by omega
  have h1 : (0 : ℤ) ≤ (k : ℤ) ∧ (k : ℤ) < (v.length : ℤ) := by omega
  simp [npSetIndex, h0, h1]

theorem npSetIndex_neg_shift (v : List ℚ) (k : ℤ) (x : ℚ) (hk : k < 0)
    (hk2 : 0 ≤ k + (v.length : ℤ)) :
    npSetIndex v k x = npSetIndex v (k + (v.length : ℤ)) x := by
  have h2 : ¬ (k + (v.length : ℤ) < 0) := by omega
  simp only [npSetIndex, if_pos hk, if_neg h2]

/-! ### `zfCommit` / `mmseCommit` structural lemmas -/

theorem zfCommit_fst_N (eq : Equalizer) (h : List ℚ) (k0 : ℤ) :
    (zfCommit eq h k0).1.N = eq.N := by
  cases hm : npSetIndex (zeros (eq.N + h.length - 1)) k0 1 with
  | error e => simp [zfCommit, hm]
  | ok d => simp [zfCommit, hm]

theorem zfCommit_fst_opt_delay (eq : Equalizer) (h : List ℚ) (k0 : ℤ) :
    (zfCommit eq h k0).1.opt_delay = eq.opt_delay := by
  cases hm : npSetIndex (zeros (eq.N + h.length - 1)) k0 1 with
  | error e => simp [zfCommit, hm]
  | ok d => simp [zfCommit, hm]

theorem zfCommit_ne_invalidDelay (eq : Equalizer) (h : List ℚ) (k0 : ℤ) :
    (zfCommit eq h k0).2 ≠ Except.error PyError.invalidDelay := by
  unfold zfCommit
  cases hm : npSetIndex (zeros (eq.N + h.length - 1)) k0 1 with
  | error e =>
      simp only [npSetIndex] at hm
      by_cases hc : (0 : ℤ) ≤ (if k0 < 0 then k0 + ((zeros (eq.N + h.length - 1)).length : ℤ) else k0) ∧
          (if k0 < 0 then k0 + ((zeros (eq.N + h.length - 1)).length : ℤ) else k0) < ((zeros (eq.N + h.length - 1)).length : ℤ)
      · rw [if_pos hc] at hm; exact absurd hm (by simp)
      · rw [if_neg hc] at hm
        simp only [Except.error.injEq] at hm
        subst hm
        simp
  | ok d => simp

theorem mmseCommit_fst_N (eq : Equalizer) (h : List ℚ) (gamma : ℚ) (k0 : ℤ) :
    (mmseCommit eq h gamma k0).1.N = eq.N := by
  cases hm : npSetIndex (zeros (eq.N + h.length - 1)) k0 1 with
  | error e => simp [mmseCommit, hm]
  | ok d => simp [mmseCommit, hm]

theorem mmseCommit_fst_opt_delay (eq : Equalizer) (h : List ℚ) (gamma : ℚ) (k0 : ℤ) :
    (mmseCommit eq h gamma k0).1.opt_delay = eq.opt_delay := by
  cases hm : npSetIndex (zeros (eq.N + h.length - 1)) k0 1 with
  | error e => simp [mmseCommit, hm]
  | ok d => simp [mmseCommit, hm]

theorem mmseCommit_ne_invalidDelay (eq : Equalizer) (h : List ℚ) (gamma : ℚ) (k0 : ℤ) :
    (mmseCommit eq h gamma k0).2 ≠ Except.error PyError.invalidDelay := by
  unfold mmseCommit
  cases hm : npSetIndex (zeros (eq.N + h.length - 1)) k0 1 with
  | error e =>
      simp only [npSetIndex] at hm
      by_cases hc : (0 : ℤ) ≤ (if k0 < 0 then k0 + ((zeros (eq.N + h.length - 1)).length : ℤ) else k0) ∧
          (if k0 < 0 then k0 + ((zeros (eq.N + h.length - 1)).length : ℤ) else k0) < ((zeros (eq.N + h.length - 1)).length : ℤ)
      · rw [if_pos hc] at hm; exact absurd hm (by simp)
      · rw [if_neg hc] at hm
        simp only [Except.error.injEq] at hm
        subst hm
        simp
  | ok d => simp

theorem zfCommit_error_fst (eq : Equalizer) (h : List ℚ) (k0 : ℤ) (e : PyError)
    (he : (zfCommit eq h k0).2 = Except.error e) : (zfCommit eq h k0).1 = eq := by
  cases hm : npSetIndex (zeros (eq.N + h.length - 1)) k0 1 with
  | error e2 => simp [zfCommit, hm]
  | ok d => simp [zfCommit, hm] at he

theorem mmseCommit_error_fst (eq : Equalizer) (h : List ℚ) (gamma : ℚ) (k0 : ℤ)
    (e : PyError) (he : (mmseCommit eq h gamma k0).2 = Except.error e) :
    (mmseCommit eq h gamma k0).1 = eq := by
  cases hm : npSetIndex (zeros (eq.N + h.length - 1)) k0 1 with
  | error e2 => simp [mmseCommit, hm]
  | ok d => simp [mmseCommit, hm] at he

theorem zfCommit_ok_of_lt (eq : Equalizer) (h : List ℚ) (k : ℕ)
    (hk : k < eq.N + h.length - 1) :
    zfCommit eq h (k : ℤ) =
      ({ eq with w := matVec (pinv (convMatrix h eq.N)) ((zeros (eq.N + h.length - 1)).set k 1) },
        Except.ok (1 - dot ((zeros (eq.N + h.length - 1)).set k 1)
          (matVec (convMatrix h eq.N)
            (matVec (pinv (convMatrix h eq.N)) ((zeros (eq.N + h.length - 1)).set k 1))))) := by
  have hset := npSetIndex_nat_ok (zeros (eq.N + h.length - 1)) k 1 (by rw [zeros_length]; exact hk)
  simp [zfCommit, hset]

theorem mmseCommit_ok_of_lt (eq : Equalizer) (h : List ℚ) (gamma : ℚ) (k : ℕ)
    (hk : k < eq.N + h.length - 1) :
    mmseCommit eq h gamma (k : ℤ) =
      ({ eq with w := (matVec (matMul (mmseR h gamma eq.N) (transpose (convMatrix h eq.N)))
          ((zeros (eq.N + h.length - 1)).set k 1)) },
        Except.ok (1 - dot (matVec (transpose (convMatrix h eq.N)) ((zeros (eq.N + h.length - 1)).set k 1))
          (matVec (matMul (mmseR h gamma eq.N) (transpose (convMatrix h eq.N)))
            ((zeros (eq.N + h.length - 1)).set k 1)))) := by
  have hset := npSetIndex_nat_ok (zeros (eq.N + h.length - 1)) k 1 (by rw [zeros_length]; exact hk)
  simp [mmseCommit, hset]

/-! ### Structural facts about the two `design` methods -/

theorem zf_design_fst_opt_delay (eq : Equalizer) (h : List ℚ) (delay : Option ℤ) :
    (zeroForcing.design eq h delay).1.opt_delay = zfOpt h eq.N := by
  cases delay with
  | none =>
      simp only [zeroForcing.design]
      exact zfCommit_fst_opt_delay { eq with opt_delay := zfOpt h eq.N } h _
  | some dl =>
      by_cases hc : (h.length : ℤ) + (eq.N : ℤ) - 1 ≤ dl
      · simp [zeroForcing.design, hc]
      · simp only [zeroForcing.design, if_neg hc]
        exact zfCommit_fst_opt_delay { eq with opt_delay := zfOpt h eq.N } h _

theorem mmse_design_fst_opt_delay (eq : Equalizer) (h : List ℚ) (gamma : ℚ)
    (delay : Option ℤ) :
    (MMSEEQ.design eq h gamma delay).1.opt_delay = mmseOpt h gamma eq.N := by
  cases delay with
  | none =>
      by_cases hc : (h.length : ℤ) + (eq.N : ℤ) - 1 ≤ ((mmseOpt h gamma eq.N : ℕ) : ℤ)
      · simp [MMSEEQ.design, hc]
      · simp only [MMSEEQ.design, if_neg hc]
        exact mmseCommit_fst_opt_delay { eq with opt_delay := mmseOpt h gamma eq.N } h gamma _
  | some dl =>
      by_cases hc : (h.length : ℤ) + (eq.N : ℤ) - 1 ≤ dl
      · simp [MMSEEQ.design, hc]
      · simp only [MMSEEQ.design, if_neg hc]
        exact mmseCommit_fst_opt_delay { eq with opt_delay := mmseOpt h gamma eq.N } h gamma _

theorem toeplitz_entry (c r : List ℚ) (i j : ℕ) (hi : i < c.length) (hj : j < r.length) :
    ((toeplitz c r).getD i []).getD j 0 =
      if j ≤ i then c.getD (i - j) 0 else r.getD (j - i) 0 := by
  unfold toeplitz
  rw [range_map_getD _ _ _ _ hi, range_map_getD _ _ _ _ hj]

theorem convMatrix_row_length (h : List ℚ) (p : ℕ) (hp : 1 ≤ p) :
    ∀ row ∈ convMatrix h p, row.length = p := by
  intro row hrow
  simp only [convMatrix, toeplitz, List.mem_map] at hrow
  obtain ⟨i, hmem, rfl⟩ := hrow
  simp [zeros_length]
  omega

theorem convMatrix_entry (h : List ℚ) (p : ℕ) (i j : ℕ)
    (hp : 1 ≤ p) (hi : i < h.length + p - 1) (hj : j < p) :
    ((convMatrix h p).getD i []).getD j 0 =
      if j ≤ i then h.getD (i - j) 0 else 0 := by
  unfold convMatrix
  rw [toeplitz_entry]
  · by_cases hji : j ≤ i
    · rw [if_pos hji, if_pos hji, getD_append_zeros]
    · rw [if_neg hji, if_neg hji]
      obtain ⟨m, hm⟩ : ∃ m, j - i = m + 1 := ⟨j - i - 1, by omega⟩
      rw [hm, List.getD_cons_succ, zeros_getD]
  · rw [List.length_append, zeros_length]; omega
  · simp only [List.length_cons, zeros_length]; omega

theorem dot_eq_sum (a b : List ℚ) :
    dot a b = ∑ j in Finset.range (min a.length b.length), a.getD j 0 * b.getD j 0 := by
  induction a generalizing b with
  | nil => simp [dot]
  | cons x t ih =>
      cases b with
      | nil => simp [dot]
      | cons y u =>
          simp only [dot, List.zipWith_cons_cons, List.sum_cons]
          have hmin : min (x :: t).length (y :: u).length = min t.length u.length + 1 := by
            simp only [List.length_cons]; omega
          rw [hmin, Finset.sum_range_succ']
          simp only [List.getD_cons_succ, List.getD_cons_zero]
          have htail := ih u
          simp only [dot] at htail
          rw [htail]
          ring

theorem filter_range_lt (n m : ℕ) :
    (Finset.range n).filter (fun j => j < m) = Finset.range (min n m) := by
  ext j
  simp only [Finset.mem_filter, Finset.mem_range, Nat.lt_min]

theorem conv_sum_key (h x : List ℚ) (p i : ℕ) (hx : x.length = p) :
    (∑ j in Finset.range p, (if j ≤ i then h.getD (i - j) 0 else 0) * x.getD j 0)
      = ∑ j in Finset.range (i + 1), h.getD j 0 * x.getD (i - j) 0 := by
  have hF : ∀ j ∈ Finset.range p,
      (if j ≤ i then h.getD (i - j) 0 else 0) * x.getD j 0
        = if j < i + 1 then h.getD (i - j) 0 * x.getD j 0 else 0 := by
    intro j _
    by_cases hji : j ≤ i
    · rw [if_pos hji, if_pos (by omega)]
    · rw [if_neg hji, if_neg (by omega), zero_mul]
  rw [Finset.sum_congr rfl hF, ← Finset.sum_filter, filter_range_lt]
  have hsub : ∑ j in Finset.range (min p (i + 1)), h.getD (i - j) 0 * x.getD j 0
      = ∑ j in Finset.range (i + 1), h.getD (i - j) 0 * x.getD j 0 := by
    apply Finset.sum_subset
    · intro j hj
      simp only [Finset.mem_range, Nat.lt_min] at hj ⊢
      omega
    · intro j hj hj2
      simp only [Finset.mem_range, Nat.lt_min, not_and, not_lt] at hj hj2
      have hxj : x.getD j 0 = 0 := by
        apply List.getD_eq_default
        omega
      rw [hxj, mul_zero]
  rw [hsub]
  have hrefl := Finset.sum_range_reflect
    (fun j => h.getD (i - j) 0 * x.getD j 0) (i + 1)
  simp only [Nat.add_sub_cancel] at hrefl
  rw [← hrefl]
  apply Finset.sum_congr rfl
  intro j hj
  simp only [Finset.mem_range] at hj
  have h1 : i - (i - j) = j := by omega
  rw [h1]

theorem matVec_convMatrix_eq_conv (h x : List ℚ) (p : ℕ)
    (hp : 1 ≤ p) (hx : x.length = p) :
    matVec (convMatrix h p) x = npConvolve h x := by
  have hcl : (h ++ zeros (p - 1)).length = h.length + p - 1 := by
    rw [List.length_append, zeros_length]; omega
  have hrl : (h.getD 0 0 :: zeros (p - 1)).length = p := by
    simp only [List.length_cons, zeros_length]; omega
  unfold matVec npConvolve
  rw [hx]
  unfold convMatrix toeplitz
  rw [hcl, hrl, List.map_map]
  apply List.map_congr_left
  intro i hi
  simp only [Finset.mem_range, List.mem_range] at hi
  simp only [Function.comp]
  rw [dot_eq_sum]
  have hrowlen : ((List.range p).map (fun j =>
      if j ≤ i then (h ++ zeros (p - 1)).getD (i - j) 0
      else (h.getD 0 0 :: zeros (p - 1)).getD (j - i) 0)).length = p := by
    simp
  rw [hrowlen, hx, Nat.min_self]
  rw [sum_range_map]
  have hentry : ∀ j ∈ Finset.range p,
      ((List.range p).map (fun j =>
        if j ≤ i then (h ++ zeros (p - 1)).getD (i - j) 0
        else (h.getD 0 0 :: zeros (p - 1)).getD (j - i) 0)).getD j 0 * x.getD j 0
      = (if j ≤ i then h.getD (i - j) 0 else 0) * x.getD j 0 := by
    intro j hj
    simp only [Finset.mem_range] at hj
    rw [range_map_getD _ _ _ _ hj]
    by_cases hji : j ≤ i
    · rw [if_pos hji, if_pos hji, getD_append_zeros]
    · rw [if_neg hji, if_neg hji]
      obtain ⟨m, hm⟩ : ∃ m, j - i = m + 1 := ⟨j - i - 1, by omega⟩
      rw [hm, List.getD_cons_succ, zeros_getD]
  rw [Finset.sum_congr rfl hentry, conv_sum_key h x p i hx]

/-! ### Small evaluation lemmas for concrete instances -/

theorem range_one : List.range 1 = [0] := by decide

theorem zeros_zero : zeros 0 = [] := rfl

theorem zeros_one : zeros 1 = [0] := rfl

theorem zeros_two : zeros 2 = [0, 0] := rfl

theorem zeros_three : zeros 3 = [0, 0, 0] := rfl

theorem getD_zero (a : ℚ) (t : List ℚ) (d : ℚ) : (a :: t).getD 0 d = a := rfl

theorem getD_one (a : ℚ) (t : List ℚ) (d : ℚ) : (a :: t).getD 1 d = t.getD 0 d := rfl

theorem getD_two (a : ℚ) (t : List ℚ) (d : ℚ) : (a :: t).getD 2 d = t.getD 1 d := rfl

theorem getD_nil (k : ℕ) (d : ℚ) : ([] : List ℚ).getD k d = d := rfl

theorem rowD_zero (a : List ℚ) (t : List (List ℚ)) : (a :: t).getD 0 [] = a := rfl

theorem rowD_one (a : List ℚ) (t : List (List ℚ)) : (a :: t).getD 1 [] = t.getD 0 [] := rfl

theorem rowD_two (a : List ℚ) (t : List (List ℚ)) : (a :: t).getD 2 [] = t.getD 1 [] := rfl

theorem eraseIdx_zero (a : ℚ) (t : List ℚ) : (a :: t).eraseIdx 0 = t := rfl

theorem eraseIdx_one (a : ℚ) (t : List ℚ) : (a :: t).eraseIdx 1 = a :: t.eraseIdx 0 := rfl

theorem set_zero (a x : ℚ) (t : List ℚ) : (a :: t).set 0 x = x :: t := rfl

theorem set_one (a x : ℚ) (t : List ℚ) : (a :: t).set 1 x = a :: t.set 0 x := rfl

theorem set_two (a x : ℚ) (t : List ℚ) : (a :: t).set 2 x = a :: t.set 1 x := rfl

/-! ### Claim theorems -/

/-- Claim C4: for every impulse response `h` of length `L ≥ 1` and every
column count `p ≥ 1`, `convMatrix h p` has shape `(L+p-1) × p`, its first
column is `h` followed by `p-1` zeros, it is Toeplitz
(`H[i+1][j+1] = H[i][j]` wherever both sides are in range), and its entries
satisfy `H[i][j] = h[i-j]` if `0 ≤ i-j < L` and `0` otherwise. -/
theorem convMatrix_shape_toeplitz_spec (h : List ℚ) (p : ℕ)
    (hL : 1 ≤ h.length) (hp : 1 ≤ p) :
    (convMatrix h p).length = h.length + p - 1 ∧
    (∀ row ∈ convMatrix h p, row.length = p) ∧
    (∀ i, i < h.length + p - 1 →
      ((convMatrix h p).getD i []).getD 0 0 = (if i < h.length then h.getD i 0 else 0)) ∧
    (∀ i j, i + 1 < h.length + p - 1 → j + 1 < p →
      ((convMatrix h p).getD (i + 1) []).getD (j + 1) 0
        = ((convMatrix h p).getD i []).getD j 0) ∧
    (∀ i j, i < h.length + p - 1 → j < p →
      ((convMatrix h p).getD i []).getD j 0
        = (if j ≤ i ∧ i - j < h.length then h.getD (i - j) 0 else 0)) := by
  refine ⟨?_, convMatrix_row_length h p hp, ?_, ?_, ?_⟩
  · rw [convMatrix_length]; omega
  · intro i hi
    rw [convMatrix_entry h p i 0 hp hi hp, if_pos (Nat.zero_le i)]
    simp only [Nat.sub_zero]
    by_cases hiL : i < h.length
    · rw [if_pos hiL]
    · rw [if_neg hiL, List.getD_eq_default _ _ (by omega)]
  · intro i j hi hj
    rw [convMatrix_entry h p (i + 1) (j + 1) hp (by omega) hj,
        convMatrix_entry h p i j hp (by omega) (by omega)]
    simp only [Nat.succ_sub_succ, Nat.add_le_add_iff_right]
  · intro i j hi hj
    rw [convMatrix_entry h p i j hp hi hj]
    by_cases hji : j ≤ i
    · by_cases hiL : i - j < h.length
      · rw [if_pos hji, if_pos ⟨hji, hiL⟩]
      · rw [if_pos hji, if_neg (by tauto), List.getD_eq_default _ _ (by omega)]
    · rw [if_neg hji, if_neg (by tauto)]

/-- Witness for C4 at `h = [1, 1/2]`, `p = 2`. -/
theorem convMatrix_shape_toeplitz_spec_witness :
    (convMatrix [(1 : ℚ), 1/2] 2).length = [(1 : ℚ), 1/2].length + 2 - 1 :=
  (convMatrix_shape_toeplitz_spec [(1 : ℚ), 1/2] 2 (by norm_num) (by norm_num)).1

/-- Claim C5: for every `h` of length `L ≥ 1`, every `p ≥ 1` and every `x`
of length `p`, `convMatrix h p @ x` is the full linear convolution of `h`
and `x`, a vector of length `L+p-1`. -/
theorem convMatrix_action_is_convolution (h x : List ℚ) (p : ℕ)
    (hL : 1 ≤ h.length) (hp : 1 ≤ p) (hx : x.length = p) :
    matVec (convMatrix h p) x = npConvolve h x ∧
    (matVec (convMatrix h p) x).length = h.length + p - 1 := by
  refine ⟨matVec_convMatrix_eq_conv h x p hp hx, ?_⟩
  rw [matVec_length, convMatrix_length]; omega

/-- Witness for C5 at `h = [1, 1/2]`, `x = [1, 2]`. -/
theorem convMatrix_action_is_convolution_witness :
    matVec (convMatrix [(1 : ℚ), 1/2] 2) [1, 2] = npConvolve [(1 : ℚ), 1/2] [1, 2] :=
  (convMatrix_action_is_convolution [(1 : ℚ), 1/2] [1, 2] 2 (by norm_num) (by norm_num)
    (by norm_num)).1

/-- Claim C2 counterexample: on the zero-length input, `equalize` does not
return the all-zero output of length `N-1` demanded by the claim; it raises
`ValueError`, because `np.convolve` rejects an empty operand. -/
theorem equalize_empty_input_raises :
    (Equalizer.init 2).equalize [] = Except.error PyError.valueError ∧
    (Equalizer.init 2).equalize [] ≠ Except.ok (zeros 1) := by
  constructor
  · simp [Equalizer.equalize]
  · simp [Equalizer.equalize]

/-- Claim C2 (amended): for every NONEMPTY input sample sequence, `equalize`
returns the full linear convolution of the input with the stored weight
vector, of length `len(input) + N - 1`; a zero-length input instead raises
`ValueError` (`np.convolve` rejects empty arrays). -/
theorem equalize_nonempty_conv_length (eq : Equalizer) (input : List ℚ)
    (hin : input ≠ []) (hw : eq.w.length = eq.N) (hN : 1 ≤ eq.N) :
    eq.equalize input = Except.ok (npConvolve input eq.w) ∧
    (npConvolve input eq.w).length = input.length + eq.N - 1 := by
  constructor
  · have h1 : ¬ (input.length = 0) := by simpa [List.length_eq_zero] using hin
    have h2 : ¬ (eq.w.length = 0) := by omega
    simp [Equalizer.equalize, h1, h2]
  · rw [npConvolve_length, hw]

/-- Witness for the amended C2 at a fresh 2-tap equalizer and input `[1]`. -/
theorem equalize_nonempty_conv_length_witness :
    (Equalizer.init 2).equalize [1] = Except.ok (npConvolve [1] (Equalizer.init 2).w) :=
  (equalize_nonempty_conv_length (Equalizer.init 2) [1] (by simp) rfl (by norm_num [Equalizer.init])).1

/-- Claim C3: for every valid channel and tap count, an explicit
caller-supplied delay `≥ L+N-1` raises `InvalidDelay` in both designers,
and an explicit delay `< L+N-1` never produces `InvalidDelay`. -/
theorem design_explicit_delay_validation (eq : Equalizer) (h : List ℚ)
    (gamma : ℚ) (dl : ℤ) (_hL : 1 ≤ h.length) (_hN : 1 ≤ eq.N) :
    ((h.length : ℤ) + (eq.N : ℤ) - 1 ≤ dl →
      (zeroForcing.design eq h (some dl)).2 = Except.error PyError.invalidDelay ∧
      (MMSEEQ.design eq h gamma (some dl)).2 = Except.error PyError.invalidDelay) ∧
    (dl < (h.length : ℤ) + (eq.N : ℤ) - 1 →
      (zeroForcing.design eq h (some dl)).2 ≠ Except.error PyError.invalidDelay ∧
      (MMSEEQ.design eq h gamma (some dl)).2 ≠ Except.error PyError.invalidDelay) := by
  constructor
  · intro hge
    constructor
    · simp [zeroForcing.design, hge]
    · simp [MMSEEQ.design, hge]
  · intro hlt
    have hc : ¬ ((h.length : ℤ) + (eq.N : ℤ) - 1 ≤ dl) := by omega
    constructor
    · simp only [zeroForcing.design, if_neg hc]
      exact zfCommit_ne_invalidDelay _ h _
    · simp only [MMSEEQ.design, if_neg hc]
      exact mmseCommit_ne_invalidDelay _ h gamma _

/-- Witness for C3 at `h = [1, 1/2]`, `N = 2`, `delay = 3 = L+N-1`. -/
theorem design_explicit_delay_validation_witness :
    (zeroForcing.design (Equalizer.init 2) [(1 : ℚ), 1/2] (some 3)).2
      = Except.error PyError.invalidDelay ∧
    (MMSEEQ.design (Equalizer.init 2) [(1 : ℚ), 1/2] (1/100) (some 3)).2
      = Except.error PyError.invalidDelay :=
  (design_explicit_delay_validation (Equalizer.init 2) [(1 : ℚ), 1/2] (1/100) 3
    (by norm_num) (by norm_num [Equalizer.init])).1 (by norm_num [Equalizer.init])

/-- Claim C7: for the degenerate channel `h = [1]` and tap count `N = 1`,
zero-forcing design succeeds and yields `MSE = 0` and weight vector
`w = [1]`, with `opt_delay = 0`. -/
theorem zf_design_unit_channel :
    zeroForcing.design (Equalizer.init 1) [1] none =
      ({ N := 1, w := [1], opt_delay := 0 }, Except.ok 0) := by
  norm_num [zeroForcing.design, zfCommit, zfOpt, zfScores, pinv, matInv, det, detAux, strike,
    convMatrix, toeplitz, matMul, matVec, transpose, ncols, dot, diag, argmaxList,
    npSetIndex, Equalizer.init, range_two, range_three, range_one, List.range_zero,
    zeros_zero, zeros_one, zeros_two, zeros_three, zeros_length,
    getD_zero, getD_one, getD_two, getD_nil, rowD_zero, rowD_one, rowD_two,
    eraseIdx_zero, eraseIdx_one, set_zero, set_one, set_two]

/-- Claim C8: for `h = [1, 1/2]`, `N = 2`, `delay = 0`, the MSE returned by
MMSE design with `snr = 20` dB (`gamma = 1/100`) is strictly greater than
the MSE returned by zero-forcing design for the same `h`, `N`, `delay`:
`97/1672 > 1/21`. -/
theorem mmse_mse_exceeds_zf_mse_concrete :
    (MMSEEQ.design (Equalizer.init 2) [(1 : ℚ), 1/2] (1/100) (some 0)).2
      = Except.ok (97/1672 : ℚ) ∧
    (zeroForcing.design (Equalizer.init 2) [(1 : ℚ), 1/2] (some 0)).2
      = Except.ok (1/21 : ℚ) ∧
    ((1 : ℚ)/21 < 97/1672) := by
  refine ⟨?_, ?_, by norm_num⟩
  · norm_num [MMSEEQ.design, mmseCommit, mmseOpt, mmseScores, mmseR, matInv, det, detAux, strike,
      convMatrix, toeplitz, matMul, matVec, matAdd, smulMat, eye, transpose, ncols, dot, diag,
      argmaxList, npSetIndex, Equalizer.init, range_two, range_three, range_one, List.range_zero,
      zeros_zero, zeros_one, zeros_two, zeros_three, zeros_length,
      getD_zero, getD_one, getD_two, getD_nil, rowD_zero, rowD_one, rowD_two,
      eraseIdx_zero, eraseIdx_one, set_zero, set_one, set_two]
  · norm_num [zeroForcing.design, zfCommit, zfOpt, zfScores, pinv, matInv, det, detAux, strike,
      convMatrix, toeplitz, matMul, matVec, transpose, ncols, dot, diag, argmaxList,
      npSetIndex, Equalizer.init, range_two, range_three, range_one, List.range_zero,
      zeros_zero, zeros_one, zeros_two, zeros_three, zeros_length,
      getD_zero, getD_one, getD_two, getD_nil, rowD_zero, rowD_one, rowD_two,
      eraseIdx_zero, eraseIdx_one, set_zero, set_one, set_two]

/-- Claim C1 counterexample: at `h = [1/2, 1]`, `N = 2`, explicit
`delay = 3 = L+N-1`, design fails with `InvalidDelay`, yet the stored
`opt_delay` changes from its prior value `0` to the freshly computed
optimum `2`: instance state IS mutated by a failing call. -/
theorem zf_invalidDelay_mutates_opt_delay :
    (zeroForcing.design (Equalizer.init 2) [(1 : ℚ)/2, 1] (some 3)).2
      = Except.error PyError.invalidDelay ∧
    (Equalizer.init 2).opt_delay = 0 ∧
    (zeroForcing.design (Equalizer.init 2) [(1 : ℚ)/2, 1] (some 3)).1.opt_delay = 2 := by
  refine ⟨?_, rfl, ?_⟩ <;>
  norm_num [zeroForcing.design, zfCommit, zfOpt, zfScores, pinv, matInv, det, detAux, strike,
    convMatrix, toeplitz, matMul, matVec, transpose, ncols, dot, diag, argmaxList,
    npSetIndex, Equalizer.init, range_two, range_three, range_one, List.range_zero,
    zeros_zero, zeros_one, zeros_two, zeros_three, zeros_length,
    getD_zero, getD_one, getD_two, getD_nil, rowD_zero, rowD_one, rowD_two,
    eraseIdx_zero, eraseIdx_one, set_zero, set_one, set_two]

/-- Claim C1 (amended): when `design` fails with `InvalidDelay`, the stored
weight vector `w` is unchanged, but `opt_delay` has already been
overwritten with the freshly computed optimum before the validation check;
only the weights commit waits for validation.  Holds for both designers. -/
theorem design_invalidDelay_keeps_w_commits_opt_delay (eq : Equalizer) (h : List ℚ)
    (gamma : ℚ) (delay : Option ℤ) :
    ((zeroForcing.design eq h delay).2 = Except.error PyError.invalidDelay →
      (zeroForcing.design eq h delay).1.w = eq.w ∧
      (zeroForcing.design eq h delay).1.opt_delay = zfOpt h eq.N) ∧
    ((MMSEEQ.design eq h gamma delay).2 = Except.error PyError.invalidDelay →
      (MMSEEQ.design eq h gamma delay).1.w = eq.w ∧
      (MMSEEQ.design eq h gamma delay).1.opt_delay = mmseOpt h gamma eq.N) := by
  constructor
  · intro he
    refine ⟨?_, zf_design_fst_opt_delay eq h delay⟩
    cases delay with
    | none =>
        simp only [zeroForcing.design] at he
        exact absurd he (zfCommit_ne_invalidDelay _ h _)
    | some dl =>
        by_cases hc : (h.length : ℤ) + (eq.N : ℤ) - 1 ≤ dl
        · simp [zeroForcing.design, hc]
        · simp only [zeroForcing.design, if_neg hc] at he
          exact absurd he (zfCommit_ne_invalidDelay _ h _)
  · intro he
    refine ⟨?_, mmse_design_fst_opt_delay eq h gamma delay⟩
    cases delay with
    | none =>
        by_cases hc : (h.length : ℤ) + (eq.N : ℤ) - 1 ≤ ((mmseOpt h gamma eq.N : ℕ) : ℤ)
        · simp [MMSEEQ.design, hc]
        · simp only [MMSEEQ.design, if_neg hc] at he
          exact absurd he (mmseCommit_ne_invalidDelay _ h gamma _)
    | some dl =>
        by_cases hc : (h.length : ℤ) + (eq.N : ℤ) - 1 ≤ dl
        · simp [MMSEEQ.design, hc]
        · simp only [MMSEEQ.design, if_neg hc] at he
          exact absurd he (mmseCommit_ne_invalidDelay _ h gamma _)

/-- Witness for the amended C1 at `h = [1/2, 1]`, `N = 2`, `delay = 3`. -/
theorem design_invalidDelay_keeps_w_commits_opt_delay_witness :
    (zeroForcing.design (Equalizer.init 2) [(1 : ℚ)/2, 1] (some 3)).1.w = (Equalizer.init 2).w ∧
    (zeroForcing.design (Equalizer.init 2) [(1 : ℚ)/2, 1] (some 3)).1.opt_delay
      = zfOpt [(1 : ℚ)/2, 1] (Equalizer.init 2).N :=
  (design_invalidDelay_keeps_w_commits_opt_delay (Equalizer.init 2) [(1 : ℚ)/2, 1]
    (1/100) (some 3)).1
    (by norm_num [zeroForcing.design, zfCommit, zfOpt, zfScores, pinv, matInv, det, detAux, strike,
      convMatrix, toeplitz, matMul, matVec, transpose, ncols, dot, diag, argmaxList,
      npSetIndex, Equalizer.init, range_two, range_three, range_one, List.range_zero,
      zeros_zero, zeros_one, zeros_two, zeros_three, zeros_length,
      getD_zero, getD_one, getD_two, getD_nil, rowD_zero, rowD_one, rowD_two,
      eraseIdx_zero, eraseIdx_one, set_zero, set_one, set_two])

/-- Claim C9: for every valid channel and tap count, calling
`zeroForcing.design` with `delay` absent never raises `InvalidDelay`: the
resolved delay is the computed `opt_delay`, which (sitting in the `elif`)
is never range-checked, and it is always strictly below `L+N-1`, so the
call succeeds outright. -/
theorem zf_design_default_delay_no_invalidDelay (eq : Equalizer) (h : List ℚ)
    (hL : 1 ≤ h.length) (hN : 1 ≤ eq.N) :
    (zeroForcing.design eq h none).2.isOk = true ∧
    (zeroForcing.design eq h none).1.opt_delay = zfOpt h eq.N ∧
    (zeroForcing.design eq h none).1.opt_delay < h.length + eq.N - 1 := by
  have hne : zfScores h eq.N ≠ [] := by
    rw [← List.length_pos, zfScores_length]; omega
  have hlt : zfOpt h eq.N < h.length + (eq.N - 1) := by
    have h1 := argmaxList_lt_length (zfScores h eq.N) hne
    rwa [zfScores_length] at h1
  have hk : zfOpt h eq.N < eq.N + h.length - 1 := by omega
  refine ⟨?_, zf_design_fst_opt_delay eq h none, ?_⟩
  · simp only [zeroForcing.design]
    rw [zfCommit_ok_of_lt { eq with opt_delay := zfOpt h eq.N } h (zfOpt h eq.N) hk]
    rfl
  · rw [zf_design_fst_opt_delay eq h none]; omega

/-- Witness for C9 at `h = [1, 1/2]`, `N = 2`. -/
theorem zf_design_default_delay_no_invalidDelay_witness :
    (zeroForcing.design (Equalizer.init 2) [(1 : ℚ), 1/2] none).2.isOk = true ∧
    (zeroForcing.design (Equalizer.init 2) [(1 : ℚ), 1/2] none).1.opt_delay
      = zfOpt [(1 : ℚ), 1/2] (Equalizer.init 2).N ∧
    (zeroForcing.design (Equalizer.init 2) [(1 : ℚ), 1/2] none).1.opt_delay
      < [(1 : ℚ), 1/2].length + (Equalizer.init 2).N - 1 :=
  zf_design_default_delay_no_invalidDelay (Equalizer.init 2) [(1 : ℚ), 1/2]
    (by norm_num) (by norm_num [Equalizer.init])

/-- Claim C6: for every successful design call on either designer, the
stored `opt_delay` lies in `[0, L+N-2]` and is the first-occurrence argmax
of the per-delay fidelity scores (its score is maximal, and every earlier
index scores strictly lower); it is recomputed and stored on every design
call, including calls where the caller supplies an explicit delay. -/
theorem design_opt_delay_argmax_spec (eq : Equalizer) (h : List ℚ) (gamma : ℚ)
    (delay : Option ℤ) (hL : 1 ≤ h.length) (hN : 1 ≤ eq.N)
    (_hzok : (zeroForcing.design eq h delay).2.isOk = true)
    (_hmok : (MMSEEQ.design eq h gamma delay).2.isOk = true) :
    ((zeroForcing.design eq h delay).1.opt_delay = zfOpt h eq.N ∧
     (zeroForcing.design eq h delay).1.opt_delay ≤ h.length + eq.N - 2 ∧
     (∀ i < h.length + eq.N - 1,
       (zfScores h eq.N).getD i 0
         ≤ (zfScores h eq.N).getD ((zeroForcing.design eq h delay).1.opt_delay) 0) ∧
     (∀ i < (zeroForcing.design eq h delay).1.opt_delay,
       (zfScores h eq.N).getD i 0
         < (zfScores h eq.N).getD ((zeroForcing.design eq h delay).1.opt_delay) 0)) ∧
    ((MMSEEQ.design eq h gamma delay).1.opt_delay = mmseOpt h gamma eq.N ∧
     (MMSEEQ.design eq h gamma delay).1.opt_delay ≤ h.length + eq.N - 2 ∧
     (∀ i < h.length + eq.N - 1,
       (mmseScores h gamma eq.N).getD i 0
         ≤ (mmseScores h gamma eq.N).getD ((MMSEEQ.design eq h gamma delay).1.opt_delay) 0) ∧
     (∀ i < (MMSEEQ.design eq h gamma delay).1.opt_delay,
       (mmseScores h gamma eq.N).getD i 0
         < (mmseScores h gamma eq.N).getD ((MMSEEQ.design eq h gamma delay).1.opt_delay) 0)) := by
  have hzd := zf_design_fst_opt_delay eq h delay
  have hmd := mmse_design_fst_opt_delay eq h gamma delay
  have hzne : zfScores h eq.N ≠ [] := by
    rw [← List.length_pos, zfScores_length]; omega
  have hmne : mmseScores h gamma eq.N ≠ [] := by
    rw [← List.length_pos, mmseScores_length]; omega
  have hzlt : zfOpt h eq.N < h.length + (eq.N - 1) := by
    have h1 := argmaxList_lt_length (zfScores h eq.N) hzne
    rwa [zfScores_length] at h1
  have hmlt : mmseOpt h gamma eq.N < h.length + (eq.N - 1) := by
    have h1 := argmaxList_lt_length (mmseScores h gamma eq.N) hmne
    rwa [mmseScores_length] at h1
  refine ⟨⟨hzd, ?_, ?_, ?_⟩, hmd, ?_, ?_, ?_⟩
  · rw [hzd]; omega
  · intro i hi
    rw [hzd]
    exact argmaxList_is_max (zfScores h eq.N) i (by rw [zfScores_length]; omega)
  · intro i hi
    rw [hzd] at hi ⊢
    exact argmaxList_first (zfScores h eq.N) i hi
  · rw [hmd]; omega
  · intro i hi
    rw [hmd]
    exact argmaxList_is_max (mmseScores h gamma eq.N) i (by rw [mmseScores_length]; omega)
  · intro i hi
    rw [hmd] at hi ⊢
    exact argmaxList_first (mmseScores h gamma eq.N) i hi

/-- Witness for C6 at `h = [1, 1/2]`, `N = 2`, `gamma = 1/100`,
`delay = 0` (both designs succeed there). -/
theorem design_opt_delay_argmax_spec_witness :
    (zeroForcing.design (Equalizer.init 2) [(1 : ℚ), 1/2] (some 0)).1.opt_delay
      = zfOpt [(1 : ℚ), 1/2] (Equalizer.init 2).N :=
  (design_opt_delay_argmax_spec (Equalizer.init 2) [(1 : ℚ), 1/2] (1/100) (some 0)
    (by norm_num) (by norm_num [Equalizer.init])
    (by norm_num [zeroForcing.design, zfCommit, zfOpt, zfScores, pinv, matInv, det, detAux, strike,
      convMatrix, toeplitz, matMul, matVec, transpose, ncols, dot, diag, argmaxList,
      npSetIndex, Equalizer.init, range_two, range_three, range_one, List.range_zero,
      zeros_zero, zeros_one, zeros_two, zeros_three, zeros_length,
      getD_zero, getD_one, getD_two, getD_nil, rowD_zero, rowD_one, rowD_two,
      eraseIdx_zero, eraseIdx_one, set_zero, set_one, set_two, Except.isOk, Except.toBool])
    (by norm_num [MMSEEQ.design, mmseCommit, mmseOpt, mmseScores, mmseR, matInv, det, detAux, strike,
      convMatrix, toeplitz, matMul, matVec, matAdd, smulMat, eye, transpose, ncols, dot, diag,
      argmaxList, npSetIndex, Equalizer.init, range_two, range_three, range_one, List.range_zero,
      zeros_zero, zeros_one, zeros_two, zeros_three, zeros_length,
      getD_zero, getD_one, getD_two, getD_nil, rowD_zero, rowD_one, rowD_two,
      eraseIdx_zero, eraseIdx_one, set_zero, set_one, set_two, Except.isOk, Except.toBool])).1.1

theorem zfCommit_congr (eq : Equalizer) (h : List ℚ) (k1 k2 : ℤ)
    (hs : npSetIndex (zeros (eq.N + h.length - 1)) k1 1
      = npSetIndex (zeros (eq.N + h.length - 1)) k2 1) :
    zfCommit eq h k1 = zfCommit eq h k2 := by
  unfold zfCommit
  rw [hs]

theorem mmseCommit_congr (eq : Equalizer) (h : List ℚ) (gamma : ℚ) (k1 k2 : ℤ)
    (hs : npSetIndex (zeros (eq.N + h.length - 1)) k1 1
      = npSetIndex (zeros (eq.N + h.length - 1)) k2 1) :
    mmseCommit eq h gamma k1 = mmseCommit eq h gamma k2 := by
  unfold mmseCommit
  rw [hs]

theorem zf_design_some_ok (eq : Equalizer) (h : List ℚ) (k : ℕ)
    (_hL : 1 ≤ h.length) (_hN : 1 ≤ eq.N) (hk : k < h.length + eq.N - 1) :
    (zeroForcing.design eq h (some (k : ℤ))).2.isOk = true := by
  have hc : ¬ ((h.length : ℤ) + (eq.N : ℤ) - 1 ≤ (k : ℤ)) := by omega
  simp only [zeroForcing.design, if_neg hc]
  rw [zfCommit_ok_of_lt { eq with opt_delay := zfOpt h eq.N } h k
    (show k < eq.N + h.length - 1 by omega)]
  rfl

theorem mmse_design_some_ok (eq : Equalizer) (h : List ℚ) (gamma : ℚ) (k : ℕ)
    (_hL : 1 ≤ h.length) (_hN : 1 ≤ eq.N) (hk : k < h.length + eq.N - 1) :
    (MMSEEQ.design eq h gamma (some (k : ℤ))).2.isOk = true := by
  have hc : ¬ ((h.length : ℤ) + (eq.N : ℤ) - 1 ≤ (k : ℤ)) := by omega
  simp only [MMSEEQ.design, if_neg hc]
  rw [mmseCommit_ok_of_lt { eq with opt_delay := mmseOpt h gamma eq.N } h gamma k
    (show k < eq.N + h.length - 1 by omega)]
  rfl

/-- Claim C10: for every caller-supplied negative delay with
`-(L+N-1) ≤ delay ≤ -1`, both designers accept the value without raising
`InvalidDelay` (only the upper bound is checked), the unit impulse of the
target vector lands at index `L+N-1+delay`, and the call completes exactly
as if that non-negative delay had been given. -/
theorem design_negative_delay_accepted (eq : Equalizer) (h : List ℚ) (gamma : ℚ)
    (dl : ℤ) (hL : 1 ≤ h.length) (hN : 1 ≤ eq.N)
    (hlo : -((h.length : ℤ) + (eq.N : ℤ) - 1) ≤ dl) (hhi : dl ≤ -1) :
    zeroForcing.design eq h (some dl)
      = zeroForcing.design eq h (some ((h.length : ℤ) + (eq.N : ℤ) - 1 + dl)) ∧
    (zeroForcing.design eq h (some dl)).2.isOk = true ∧
    MMSEEQ.design eq h gamma (some dl)
      = MMSEEQ.design eq h gamma (some ((h.length : ℤ) + (eq.N : ℤ) - 1 + dl)) ∧
    (MMSEEQ.design eq h gamma (some dl)).2.isOk = true := by
  have hlen : ((zeros (eq.N + h.length - 1)).length : ℤ) = (h.length : ℤ) + (eq.N : ℤ) - 1 := by
    rw [zeros_length]; omega
  have hshift : npSetIndex (zeros (eq.N + h.length - 1)) dl 1
      = npSetIndex (zeros (eq.N + h.length - 1)) ((h.length : ℤ) + (eq.N : ℤ) - 1 + dl) 1 := by
    have hstep := npSetIndex_neg_shift (zeros (eq.N + h.length - 1)) dl 1 (by omega)
      (by rw [hlen]; omega)
    rw [hstep, hlen, Int.add_comm dl ((h.length : ℤ) + (eq.N : ℤ) - 1)]
  have hc1 : ¬ ((h.length : ℤ) + (eq.N : ℤ) - 1 ≤ dl) := by omega
  have hc2 : ¬ ((h.length : ℤ) + (eq.N : ℤ) - 1 ≤ (h.length : ℤ) + (eq.N : ℤ) - 1 + dl) := by
    omega
  have hzeq : zeroForcing.design eq h (some dl)
      = zeroForcing.design eq h (some ((h.length : ℤ) + (eq.N : ℤ) - 1 + dl)) := by
    simp only [zeroForcing.design, if_neg hc1, if_neg hc2]
    exact zfCommit_congr _ h dl _ hshift
  have hmeq : MMSEEQ.design eq h gamma (some dl)
      = MMSEEQ.design eq h gamma (some ((h.length : ℤ) + (eq.N : ℤ) - 1 + dl)) := by
    simp only [MMSEEQ.design, if_neg hc1, if_neg hc2]
    exact mmseCommit_congr _ h gamma dl _ hshift
  have hknat : ((((h.length : ℤ) + (eq.N : ℤ) - 1 + dl).toNat : ℕ) : ℤ)
      = (h.length : ℤ) + (eq.N : ℤ) - 1 + dl := by omega
  have hkbound : ((h.length : ℤ) + (eq.N : ℤ) - 1 + dl).toNat < h.length + eq.N - 1 := by omega
  refine ⟨hzeq, ?_, hmeq, ?_⟩
  · rw [hzeq, ← hknat]
    exact zf_design_some_ok eq h _ hL hN hkbound
  · rw [hmeq, ← hknat]
    exact mmse_design_some_ok eq h gamma _ hL hN hkbound

/-- Witness for C10 at `h = [1, 1/2]`, `N = 2`, `delay = -1`. -/
theorem design_negative_delay_accepted_witness :
    zeroForcing.design (Equalizer.init 2) [(1 : ℚ), 1/2] (some (-1))
      = zeroForcing.design (Equalizer.init 2) [(1 : ℚ), 1/2]
          (some (([(1 : ℚ), 1/2].length : ℤ) + ((Equalizer.init 2).N : ℤ) - 1 + (-1))) :=
  (design_negative_delay_accepted (Equalizer.init 2) [(1 : ℚ), 1/2] (1/100) (-1)
    (by norm_num) (by norm_num [Equalizer.init]) (by norm_num [Equalizer.init])
    (by norm_num)).1
